import Mathlib

/-!
Verification of the en-ka English→Katakana converter's search-and-scoring
core against its specification.

The TypeScript sources are shallowly embedded:
* JS `Map` objects become insertion-ordered association lists (JS `Map`
  preserves insertion order and `set` on an existing key keeps its position);
* JS `Set` objects become duplicate-free lists in insertion order;
* `Array.prototype.sort(cmp)` (stable in modern engines) becomes
  `List.insertionSort` with the preorder `cmp a b ≤ 0`, which is the same
  stable sort;
* `String.prototype.toLowerCase` becomes a character-wise ASCII lowering
  (the dictionary keys and queries involved are ASCII);
* `Math.round(score * 0.7)` becomes `(7 * s + 5) / 10` on `Nat`, which
  agrees with the IEEE-754 computation on every score the index stores;
* the external `fuzzy` npm library is not part of the repository, so the
  functions calling it are parametrised by the list of matched keys it
  returns.
-/

namespace EnKa

/-- Character-wise lowering, embedding `String.prototype.toLowerCase` for the
ASCII keys and queries this program indexes. -/
def toLowerStr (s : String) : String := String.mk (s.toList.map Char.toLower)

/-- JS `String.prototype.split` on a character class: a separator ends the
current (possibly empty) piece, so runs of separators leave empty pieces
that the callers filter away. -/
def splitCharsAux (p : Char → Bool) (cur : List Char) : List Char → List (List Char)
  | [] => [cur.reverse]
  | c :: t =>
    if p c then cur.reverse :: splitCharsAux p [] t
    else splitCharsAux p (c :: cur) t

/-- `text.split(regexOn p)` for a single-character class. -/
def splitString (p : Char → Bool) (s : String) : List String :=
  (splitCharsAux p [] s.toList).map String.mk

/-- `String.prototype.trim`: strip leading and trailing whitespace. -/
def strTrim (s : String) : String :=
  String.mk (((s.toList.dropWhile Char.isWhitespace).reverse.dropWhile
    Char.isWhitespace).reverse)

/-- Strict code-point lexicographic order on character lists. -/
def charsLt : List Char → List Char → Bool
  | [], [] => false
  | [], _ :: _ => true
  | _ :: _, [] => false
  | a :: as, b :: bs =>
    if a.toNat < b.toNat then true
    else if b.toNat < a.toNat then false
    else charsLt as bs

/-- Code-point lexicographic `≤` on strings: how JS default string
comparison and `localeCompare` are embedded for the ASCII and katakana keys
this program compares. -/
def strLE (a b : String) : Bool := !charsLt b.toList a.toList

/-- JS `key.startsWith(query)`. -/
def jsStartsWith (key query : String) : Bool := query.toList.isPrefixOf key.toList

/-- The separator class of the tokenizing regex `[\s,;()[\]]+` in
`DictionaryLoader.indexWithScoring`. -/
def isSplitChar (c : Char) : Bool :=
  c.isWhitespace || c = ',' || c = ';' || c = '(' || c = ')' || c = '[' || c = ']'

/-- The separator class of the description regex `[\s,;]+`. -/
def isDescSplitChar (c : Char) : Bool :=
  c.isWhitespace || c = ',' || c = ';'

/-- The stop-word list of `DictionaryLoader.isCommonWord`. -/
def commonWords : List String :=
  ["the", "and", "or", "but", "for", "with", "without", "from", "to", "at", "in", "on",
   "by", "of", "a", "an", "be", "is", "are", "was", "were", "being", "been",
   "have", "has", "had", "do", "does", "did", "will", "would", "could", "should",
   "may", "might", "can", "must", "shall", "this", "that", "these", "those"]

/-- `DictionaryLoader.isCommonWord`. -/
def isCommonWord (w : String) : Bool := commonWords.contains (toLowerStr w)

/-- `kanji` array element of a JMDict entry (tags/info are never read by the
core and are omitted). -/
structure KanjiElement where
  text : String
  common : Bool := false
deriving DecidableEq

/-- `kana` array element of a JMDict entry. -/
structure KanaElement where
  text : String
  common : Bool := false
  appliesToKanji : Option (List String) := none
deriving DecidableEq

/-- One gloss of a sense. -/
structure Gloss where
  text : String
  lang : Option String := none
deriving DecidableEq

/-- One sense of an entry (only `gloss` is read by the core). -/
structure Sense where
  gloss : List Gloss
deriving DecidableEq

/-- A dictionary entry (`JMDictEntry` in `types.ts`); a missing `kanji?`
array and an empty one behave identically in every reading site. -/
structure JMDictEntry where
  id : String
  kanji : List KanjiElement := []
  kana : List KanaElement
  sense : List Sense
deriving DecidableEq

/-- `MatchType` in `types.ts`. -/
inductive MatchType where
  | exact
  | primary
  | compound
  | description
deriving DecidableEq

/-- `ScoredResult` in `types.ts`. -/
structure ScoredResult where
  entry : JMDictEntry
  score : Nat
  matchType : MatchType
  matchedTerm : String
deriving DecidableEq

/-- A `Map<string, ScoredResult[]>` as an insertion-ordered association list. -/
abbrev ScoredIndex := List (String × List ScoredResult)

/-- `index.get(key) || []`. -/
def mapGet (m : ScoredIndex) (k : String) : List ScoredResult :=
  ((m.find? (fun p => p.1 == k)).map Prod.snd).getD []

/-- `DictionaryLoader.addToScoredIndex`: push onto the key's list, creating
the key (at the end, JS `Map` insertion order) if absent. -/
def addToScoredIndex (m : ScoredIndex) (k : String) (r : ScoredResult) : ScoredIndex :=
  match m with
  | [] => [(k, [r])]
  | (k', rs) :: t =>
    if k' == k then (k', rs ++ [r]) :: t else (k', rs) :: addToScoredIndex t k r

/-- The character class of the regex `[゠-ヿー゙゚]`. -/
def isKatakanaChar (c : Char) : Bool :=
  (0x30A0 ≤ c.toNat && c.toNat ≤ 0x30FF) || c.toNat = 0x3099 || c.toNat = 0x309A

/-- `isKatakana`: the whole (nonempty) string matches the katakana class. -/
def isKatakana (s : String) : Bool :=
  !s.isEmpty && s.toList.all isKatakanaChar

/-- The first parenthesized segment, embedding `text.match(/\(([^)]+)\)/)`:
the first `(` followed by a nonempty run of non-`)` characters and then a
`)`; on failure the regex engine advances one position and retries. -/
def parenInside : List Char → Option (List Char)
  | [] => none
  | c :: rest =>
    if c = '(' then
      let inside := rest.takeWhile (fun x => x ≠ ')')
      if 0 < inside.length ∧ inside.length < rest.length then some inside
      else parenInside rest
    else parenInside rest

/-- The three tier maps built by `DictionaryLoader.buildIndex`. -/
structure TierMaps where
  exactMatches : ScoredIndex
  compoundWords : ScoredIndex
  descriptionOnly : ScoredIndex
deriving DecidableEq

/-- `DictionaryLoader.indexWithScoring`, acting on the three tier maps.
`englishText` arrives lower-cased and trimmed from `buildIndex`. -/
def indexWithScoring (englishText : String) (entry : JMDictEntry) (m : TierMaps) : TierMaps :=
  let words := (splitString isSplitChar englishText).filter (fun w => 0 < w.length)
  let cleanWords := words.filter (fun w => 2 < w.length && !isCommonWord w)
  let m1 :=
    if cleanWords.length = 1 then
      let word := cleanWords.headD ""
      { m with exactMatches :=
          addToScoredIndex m.exactMatches word ⟨entry, 100, .exact, word⟩ }
    else if 1 < cleanWords.length then
      let cw := cleanWords.enum.foldl (fun acc iw =>
        if iw.1 = 0 then addToScoredIndex acc iw.2 ⟨entry, 80, .primary, iw.2⟩
        else addToScoredIndex acc iw.2 ⟨entry, 60, .compound, iw.2⟩) m.compoundWords
      { m with compoundWords := cw }
    else m
  match parenInside englishText.toList with
  | none => m1
  | some seg =>
    let descWords := (splitString isDescSplitChar (String.mk seg)).filter
      (fun w => 2 < w.length && !isCommonWord w)
    let dm := descWords.foldl (fun acc w =>
      addToScoredIndex acc w ⟨entry, 20, .description, w⟩) m1.descriptionOnly
    { m1 with descriptionOnly := dm }

/-- `entriesMap.set(entry.id, entry)`: JS `Map.set` replaces in place or
appends. -/
def mapSetEntry : List (String × JMDictEntry) → String → JMDictEntry → List (String × JMDictEntry)
  | [], k, v => [(k, v)]
  | (k', v') :: t, k, v =>
    if k' == k then (k, v) :: t else (k', v') :: mapSetEntry t k v

/-- JS `Set.add` on a set kept in insertion order. -/
def setAdd (s : List String) (x : String) : List String :=
  if s.contains x then s else s ++ [x]

/-- `IndexedDictionary` in `types.ts` (the build timestamp `lastUpdated`
carries no searchable content and is omitted). -/
structure IndexedDictionary where
  entries : List (String × JMDictEntry)
  exactMatches : ScoredIndex
  compoundWords : ScoredIndex
  descriptionOnly : ScoredIndex
  katakanaWords : List String
deriving DecidableEq

/-- The per-entry gloss loop of `buildIndex`: every gloss of every sense
whose `lang` is `'eng'` or absent is indexed after lower-casing and
trimming. -/
def indexEntry (m : TierMaps) (entry : JMDictEntry) : TierMaps :=
  entry.sense.foldl (fun m1 sense =>
    sense.gloss.foldl (fun m2 gloss =>
      if gloss.lang == some "eng" || gloss.lang == none then
        indexWithScoring (strTrim (toLowerStr gloss.text)) entry m2
      else m2) m1) m

/-- The per-entry katakana-forms loop of `buildIndex`. -/
def collectKatakana (s : List String) (entry : JMDictEntry) : List String :=
  entry.kana.foldl (fun acc kana =>
    if isKatakana kana.text then setAdd acc kana.text else acc) s

/-- `DictionaryLoader.buildIndex`. -/
def buildIndex (entries : List JMDictEntry) : IndexedDictionary :=
  entries.foldl (fun d entry =>
    let tm := indexEntry ⟨d.exactMatches, d.compoundWords, d.descriptionOnly⟩ entry
    { entries := mapSetEntry d.entries entry.id entry
      exactMatches := tm.exactMatches
      compoundWords := tm.compoundWords
      descriptionOnly := tm.descriptionOnly
      katakanaWords := collectKatakana d.katakanaWords entry })
    ⟨[], [], [], [], []⟩

/-- `SearchMode` in `types.ts`. -/
inductive SearchMode where
  | strict
  | normal
  | broad
deriving DecidableEq

/-- One step of `SearchEngine.deduplicateByEntry`'s loop: the JS
`entryMap.set(id, result)` keyed by `result.entry.id`, replacing the stored
candidate only when the new score is strictly greater (the key keeps its
original position). -/
def dedupInsert : List (String × ScoredResult) → ScoredResult → List (String × ScoredResult)
  | [], r => [(r.entry.id, r)]
  | (k, v) :: t, r =>
    if k == r.entry.id then
      (if v.score < r.score then (k, r) :: t else (k, v) :: t)
    else (k, v) :: dedupInsert t r

/-- `SearchEngine.deduplicateByEntry`: one candidate per entry id, highest
score kept, in order of first appearance. -/
def deduplicateByEntry (results : List ScoredResult) : List ScoredResult :=
  (results.foldl dedupInsert []).map Prod.snd

/-- `results.sort((a, b) => b.score - a.score)`: the stable descending sort
by score. -/
def sortByScoreDesc (l : List ScoredResult) : List ScoredResult :=
  l.insertionSort (fun a b => b.score ≤ a.score)

/-- The candidates `SearchEngine.findScoredMatches` pushes before
deduplication: exact-tier always, compound-tier for `normal`/`broad`,
description-tier for `broad`. -/
def collectedFor (dict : IndexedDictionary) (searchTerm : String) (mode : SearchMode) :
    List ScoredResult :=
  mapGet dict.exactMatches searchTerm
    ++ (if mode = .normal ∨ mode = .broad then mapGet dict.compoundWords searchTerm else [])
    ++ (if mode = .broad then mapGet dict.descriptionOnly searchTerm else [])

/-- `SearchEngine.findScoredMatches`. -/
def findScoredMatches (dict : IndexedDictionary) (query : String) (mode : SearchMode) :
    List ScoredResult :=
  let searchTerm := strTrim (toLowerStr query)
  sortByScoreDesc (deduplicateByEntry (collectedFor dict searchTerm mode))

/-- The keys of an index map, in insertion order. -/
def keysOf (m : ScoredIndex) : List String := m.map Prod.fst

/-- The `allKeys` set of `SearchEngine.findFuzzyMatches`: exact keys, then
compound keys (mode permitting), then description keys (broad), first
occurrence kept. -/
def allKeysFor (dict : IndexedDictionary) (mode : SearchMode) : List String :=
  let s1 := (keysOf dict.exactMatches).foldl setAdd []
  let s2 := if mode = .normal ∨ mode = .broad then
      (keysOf dict.compoundWords).foldl setAdd s1
    else s1
  if mode = .broad then (keysOf dict.descriptionOnly).foldl setAdd s2 else s2

/-- `Math.round(score * 0.7)`: for every score this index stores the IEEE-754
double computation rounds to exactly this integer. -/
def fuzzyScore (s : Nat) : Nat := (7 * s + 5) / 10

/-- The 30% fuzzy penalty applied to one candidate. -/
def penalize (r : ScoredResult) : ScoredResult := { r with score := fuzzyScore r.score }

/-- The candidates one fuzzy-matched key contributes (before the penalty). -/
def rawGather (dict : IndexedDictionary) (mode : SearchMode) (k : String) : List ScoredResult :=
  mapGet dict.exactMatches k
    ++ (if mode = .normal ∨ mode = .broad then mapGet dict.compoundWords k else [])
    ++ (if mode = .broad then mapGet dict.descriptionOnly k else [])

/-- The per-key loop body of `findFuzzyMatches`: each tier's candidates are
pushed with the penalty applied, under the same mode gating. -/
def fuzzyGather (dict : IndexedDictionary) (mode : SearchMode) (k : String) : List ScoredResult :=
  (mapGet dict.exactMatches k).map penalize
    ++ (if mode = .normal ∨ mode = .broad then (mapGet dict.compoundWords k).map penalize else [])
    ++ (if mode = .broad then (mapGet dict.descriptionOnly k).map penalize else [])

/-- `SearchEngine.findFuzzyMatches`. The external `fuzzy.filter` call is the
parameter `fuzzyFilter`, returning the matched keys in rank order. -/
def findFuzzyMatches (fuzzyFilter : String → List String → List String)
    (dict : IndexedDictionary) (query : String) (mode : SearchMode) (maxResults : Nat) :
    List ScoredResult :=
  let keysArray := allKeysFor dict mode
  let matched := (fuzzyFilter (toLowerStr query) keysArray).take (maxResults * 2)
  let scoredResults := matched.flatMap (fuzzyGather dict mode)
  (sortByScoreDesc (deduplicateByEntry scoredResults)).take maxResults

/-- `suggestions.sort()`: JS default lexicographic sort. -/
def sortStrings (l : List String) : List String :=
  l.insertionSort (fun a b => strLE a b = true)

/-- `SearchEngine.getSuggestions`. -/
def getSuggestions (dict : IndexedDictionary) (partialQuery : String) (maxResults : Nat) :
    List String :=
  let query := toLowerStr partialQuery
  let s1 := (keysOf dict.exactMatches).foldl (fun acc k =>
    if jsStartsWith k query ∧ acc.length < maxResults then acc ++ [k] else acc) []
  let s2 := if s1.length < maxResults then
      (keysOf dict.compoundWords).foldl (fun acc k =>
        if jsStartsWith k query ∧ k ∉ acc ∧ acc.length < maxResults then acc ++ [k]
        else acc) s1
    else s1
  sortStrings s2

/-- `ConversionResult` in `types.ts`; `hiragana` and `romaji` are always
produced by `entryToConversions`, `kanji` may be absent. -/
structure ConversionResult where
  katakana : String
  hiragana : String
  kanji : Option String := none
  romaji : String
  meaning : String
  common : Bool
deriving DecidableEq

/-- `JapaneseConverter.katakanaToHiragana`: shift every code point in
`[ァ, ヶ]` (U+30A1–U+30F6) down by 0x60. -/
def katakanaToHiragana (s : String) : String :=
  String.mk (s.toList.map (fun c =>
    if 0x30A1 ≤ c.toNat ∧ c.toNat ≤ 0x30F6 then Char.ofNat (c.toNat - 0x60) else c))

/-- `JapaneseConverter.KATAKANA_TO_ROMAJI_MAP`. -/
def katakanaToRomajiPairs : List (Char × String) :=
  [('ア', "a"), ('イ', "i"), ('ウ', "u"), ('エ', "e"), ('オ', "o"),
   ('カ', "ka"), ('キ', "ki"), ('ク', "ku"), ('ケ', "ke"), ('コ', "ko"),
   ('サ', "sa"), ('シ', "shi"), ('ス', "su"), ('セ', "se"), ('ソ', "so"),
   ('タ', "ta"), ('チ', "chi"), ('ツ', "tsu"), ('テ', "te"), ('ト', "to"),
   ('ナ', "na"), ('ニ', "ni"), ('ヌ', "nu"), ('ネ', "ne"), ('ノ', "no"),
   ('ハ', "ha"), ('ヒ', "hi"), ('フ', "fu"), ('ヘ', "he"), ('ホ', "ho"),
   ('マ', "ma"), ('ミ', "mi"), ('ム', "mu"), ('メ', "me"), ('モ', "mo"),
   ('ヤ', "ya"), ('ユ', "yu"), ('ヨ', "yo"),
   ('ラ', "ra"), ('リ', "ri"), ('ル', "ru"), ('レ', "re"), ('ロ', "ro"),
   ('ワ', "wa"), ('ヲ', "wo"), ('ン', "n"),
   ('ガ', "ga"), ('ギ', "gi"), ('グ', "gu"), ('ゲ', "ge"), ('ゴ', "go"),
   ('ザ', "za"), ('ジ', "ji"), ('ズ', "zu"), ('ゼ', "ze"), ('ゾ', "zo"),
   ('ダ', "da"), ('ヂ', "ji"), ('ヅ', "zu"), ('デ', "de"), ('ド', "do"),
   ('バ', "ba"), ('ビ', "bi"), ('ブ', "bu"), ('ベ', "be"), ('ボ', "bo"),
   ('パ', "pa"), ('ピ', "pi"), ('プ', "pu"), ('ペ', "pe"), ('ポ', "po"),
   ('ー', "-"), ('ッ', "")]

/-- `KATAKANA_TO_ROMAJI_MAP[char]`: `none` embeds JS `undefined`. -/
def romajiLookup (c : Char) : Option String :=
  (katakanaToRomajiPairs.find? (fun p => p.1 == c)).map Prod.snd

/-- `JapaneseConverter.VOWELS`. -/
def isVowelChar (c : Char) : Bool :=
  c = 'a' || c = 'i' || c = 'u' || c = 'e' || c = 'o'

/-- The loop of `JapaneseConverter.katakanaToRomaji`. JS `!mapping` is true
both for a missing key and for the empty string stored under `ッ`, so both
fall into the append-the-raw-character branch; the small-tsu branch below it
mirrors the source but is unreachable for `ッ` itself. -/
def katakanaToRomajiAux : List Char → String
  | [] => ""
  | c :: rest =>
    match romajiLookup c with
    | none => c.toString ++ katakanaToRomajiAux rest
    | some m =>
      if m.isEmpty then c.toString ++ katakanaToRomajiAux rest
      else if c = 'ッ' then
        match rest with
        | [] => m ++ katakanaToRomajiAux rest
        | next :: _ =>
          match romajiLookup next with
          | none => katakanaToRomajiAux rest
          | some nm =>
            if nm.isEmpty then katakanaToRomajiAux rest
            else if isVowelChar (nm.toList.headD ' ') then katakanaToRomajiAux rest
            else String.mk (nm.toList.take 1) ++ katakanaToRomajiAux rest
      else m ++ katakanaToRomajiAux rest

/-- `JapaneseConverter.katakanaToRomaji`. -/
def katakanaToRomaji (s : String) : String := katakanaToRomajiAux s.toList

/-- `ResultProcessor.extractMeaning`: the English-or-untagged glosses of the
first sense joined with a comma. -/
def extractMeaning (entry : JMDictEntry) : String :=
  match entry.sense with
  | [] => ""
  | s :: _ =>
    String.intercalate ", "
      ((s.gloss.filter (fun g => g.lang == some "eng" || g.lang == none)).map Gloss.text)

/-- `ResultProcessor.findCorrespondingKanji`. -/
def findCorrespondingKanji (entry : JMDictEntry) (kana : KanaElement) : Option KanjiElement :=
  entry.kanji.find? (fun k =>
    match kana.appliesToKanji with
    | none => true
    | some l => l.contains k.text)

/-- `ResultProcessor.entryToConversions`: katakana readings sorted
common-first (stable), one record per reading. -/
def entryToConversions (entry : JMDictEntry) : List ConversionResult :=
  let katakanaReadings :=
    (entry.kana.filter (fun k => isKatakana k.text)).insertionSort
      (fun a b => a.common || !b.common)
  let meaning := extractMeaning entry
  katakanaReadings.map (fun kana =>
    { katakana := kana.text
      hiragana := katakanaToHiragana kana.text
      kanji := (findCorrespondingKanji entry kana).map KanjiElement.text
      romaji := katakanaToRomaji kana.text
      meaning := meaning
      common := kana.common })

/-- The loop of `ResultProcessor.deduplicateResults` with its `seen` set. -/
def dedupResultsAux (seen : List String) : List ConversionResult → List ConversionResult
  | [] => []
  | r :: t =>
    if r.katakana ∈ seen then dedupResultsAux seen t
    else r :: dedupResultsAux (seen ++ [r.katakana]) t

/-- `ResultProcessor.deduplicateResults`: keep the first record carrying each
katakana surface form. -/
def deduplicateResults (l : List ConversionResult) : List ConversionResult :=
  dedupResultsAux [] l

/-- Whether any kana reading of the entry is flagged common (the secondary
sort key of `processScoredResults`). -/
def entryCommonAny (e : JMDictEntry) : Bool := e.kana.any (fun k => k.common)

/-- The entry's first katakana-classified reading, or `""` (the tertiary
sort key of `processScoredResults`). -/
def firstKatakanaText (e : JMDictEntry) : String :=
  (((e.kana.find? (fun k => isKatakana k.text))).map KanaElement.text).getD ""

/-- The comparator of `processScoredResults` as the preorder `cmp a b ≤ 0`:
score descending, then any-common first, then first-katakana ascending
(`localeCompare` embedded as code-point order). -/
def scoredLE (a b : ScoredResult) : Bool :=
  if a.score ≠ b.score then decide (b.score ≤ a.score)
  else
    let aC := entryCommonAny a.entry
    let bC := entryCommonAny b.entry
    if aC && !bC then true
    else if !aC && bC then false
    else strLE (firstKatakanaText a.entry) (firstKatakanaText b.entry)

/-- The stable three-key sort of `processScoredResults`. -/
def sortScored (l : List ScoredResult) : List ScoredResult :=
  l.insertionSort (fun a b => scoredLE a b = true)

/-- `ResultProcessor.processScoredResults`. -/
def processScoredResults (scoredResults : List ScoredResult) : List ConversionResult :=
  let sortedScored := sortScored scoredResults
  let results := sortedScored.flatMap (fun sr => entryToConversions sr.entry)
  deduplicateResults results

/-- `EnglishToKatakanaConverter.convert` (converter.ts), parametrised like
`findFuzzyMatches` by the external fuzzy matcher. -/
def convert (fuzzyFilter : String → List String → List String)
    (dict : IndexedDictionary) (englishText : String) (mode : SearchMode)
    (useFuzzy : Bool) (maxResults : Nat) : List ConversionResult :=
  let query := strTrim (toLowerStr englishText)
  let scoredResults := findScoredMatches dict query mode
  let scoredResults :=
    if scoredResults.length = 0 ∧ useFuzzy then
      findFuzzyMatches fuzzyFilter dict query mode maxResults
    else scoredResults
  (processScoredResults scoredResults).take maxResults

/-! ### Spec-side definitions (worded from the specification, for refinement
statements) -/

/-- §4.1 steps 3–5 as the spec states them, per gloss: tokenize the
lower-cased, trimmed gloss on whitespace and `,;()[]`, discard tokens of
length ≤ 2 and stop-words; exactly one survivor → exact tier at 100; two or
more → compound tier, first at 80 (`primary`), later ones at 60
(`compound`); independently, the first parenthesized segment's tokens
(split on whitespace/comma/semicolon, same filter) → description tier
at 20. -/
def specIndexGloss (glossText : String) (entry : JMDictEntry) (m : TierMaps) : TierMaps :=
  let normalized := strTrim (toLowerStr glossText)
  let surviving := (splitString isSplitChar normalized).filter
    (fun w => 2 < w.length && !isCommonWord w)
  let m1 :=
    match surviving with
    | [] => m
    | [t] =>
      { m with exactMatches := addToScoredIndex m.exactMatches t ⟨entry, 100, .exact, t⟩ }
    | t :: ts =>
      let first := addToScoredIndex m.compoundWords t ⟨entry, 80, .primary, t⟩
      let rest := ts.foldl (fun acc w =>
        addToScoredIndex acc w ⟨entry, 60, .compound, w⟩) first
      { m with compoundWords := rest }
  match parenInside normalized.toList with
  | none => m1
  | some seg =>
    let descTokens := (splitString isDescSplitChar (String.mk seg)).filter
      (fun w => 2 < w.length && !isCommonWord w)
    let dm := descTokens.foldl (fun acc w =>
      addToScoredIndex acc w ⟨entry, 20, .description, w⟩) m1.descriptionOnly
    { m1 with descriptionOnly := dm }

/-- §4.3's three-key order as the spec states it: score descending, then
entries with any common kana reading first, then the first katakana reading
ascending. -/
def specThreeKeyLE (a b : ScoredResult) : Prop :=
  b.score < a.score
  ∨ (a.score = b.score
      ∧ ((entryCommonAny a.entry = true ∧ entryCommonAny b.entry = false)
        ∨ (entryCommonAny a.entry = entryCommonAny b.entry
            ∧ strLE (firstKatakanaText a.entry) (firstKatakanaText b.entry) = true)))

/-! ### Concrete fixtures from the spec's testable properties -/

/-- A one-kana one-gloss entry. -/
def mkSimpleEntry (i kat gl : String) : JMDictEntry :=
  { id := i
    kana := [{ text := kat }]
    sense := [⟨[{ text := gl, lang := some "eng" }]⟩] }

/-- §8's end-to-end entry: katakana `コンピューター` flagged common, one
English gloss `computer`. -/
def entry6 : JMDictEntry :=
  { id := "1"
    kana := [{ text := "コンピューター", common := true }]
    sense := [⟨[{ text := "computer", lang := some "eng" }]⟩] }

def dict6 : IndexedDictionary := buildIndex [entry6]

/-- The record the code produces for `convert("computer", strict)` against
`dict6`: the unmapped small `ュ` is passed through into the romaji. -/
def rec6Code : ConversionResult :=
  { katakana := "コンピューター"
    hiragana := "こんぴゅーたー"
    kanji := none
    romaji := "konpiュ-ta-"
    meaning := "computer"
    common := true }

/-- The record §8 claims for the same call, with romaji `konpyu-ta-`. -/
def rec6Spec : ConversionResult :=
  { katakana := "コンピューター"
    hiragana := "こんぴゅーたー"
    kanji := none
    romaji := "konpyu-ta-"
    meaning := "computer"
    common := true }

/-- An entry indexed only through the two-word compound gloss
`mobile house`. -/
def entry2 : JMDictEntry := mkSimpleEntry "e2" "モービルハウス" "mobile house"

def dict2 : IndexedDictionary := buildIndex [entry2]

/-- §8's suggestion fixture: a dictionary whose exact-tier keys are
`computer`, `company`, `complete`, `compare`. -/
def dict7 : IndexedDictionary := buildIndex
  [mkSimpleEntry "s1" "コンピューター" "computer",
   mkSimpleEntry "s2" "カンパニー" "company",
   mkSimpleEntry "s3" "コンプリート" "complete",
   mkSimpleEntry "s4" "コンペア" "compare"]

/-- A fuzzy matcher that matches nothing (used to instantiate the
`fuzzyFilter` parameter at concrete inputs). -/
def ffNone : String → List String → List String := fun _ _ => []

/-- A fuzzy matcher that returns every key. -/
def ffAll : String → List String → List String := fun _ keys => keys

/-! ### Generic helper lemmas -/

theorem foldl_preserve {α β : Type} {P : β → Prop} {f : β → α → β}
    (h : ∀ b a, P b → P (f b a)) : ∀ (l : List α) (b : β), P b → P (l.foldl f b)
  | [], _, hb => hb
  | a :: t, b, hb => foldl_preserve h t (f b a) (h b a hb)

theorem charsLt_irrefl : ∀ l : List Char, charsLt l l = false
  | [] => rfl
  | c :: t => by
    simp only [charsLt, lt_irrefl, if_false, if_neg (lt_irrefl c.toNat)]
    exact charsLt_irrefl t

theorem charsLt_trans : ∀ {a b c : List Char},
    charsLt a b = true → charsLt b c = true → charsLt a c = true
  | [], [], _, hab, _ => by simp [charsLt] at hab
  | _ :: _, [], _, hab, _ => by simp [charsLt] at hab
  | [], _ :: _, [], _, hbc => by simp [charsLt] at hbc
  | [], _ :: _, _ :: _, _, _ => rfl
  | _ :: _, _ :: _, [], _, hbc => by simp [charsLt] at hbc
  | x :: xs, y :: ys, z :: zs, hab, hbc => by
    simp only [charsLt] at hab hbc ⊢
    by_cases hxy : x.toNat < y.toNat
    · by_cases hyz : y.toNat < z.toNat
      · simp [Nat.lt_trans hxy hyz]
      · simp only [if_neg hyz] at hbc
        by_cases hzy : z.toNat < y.toNat
        · simp [if_pos hzy] at hbc
        · have : x.toNat < z.toNat := by omega
          simp [this]
    · simp only [if_neg hxy] at hab
      by_cases hyx : y.toNat < x.toNat
      · simp [if_pos hyx] at hab
      · simp only [if_neg hyx] at hab
        have hxyeq : x.toNat = y.toNat := by omega
        by_cases hyz : y.toNat < z.toNat
        · have : x.toNat < z.toNat := by omega
          simp [this]
        · simp only [if_neg hyz] at hbc
          by_cases hzy : z.toNat < y.toNat
          · simp [if_pos hzy] at hbc
          · simp only [if_neg hzy] at hbc
            have h1 : ¬x.toNat < z.toNat := by omega
            have h2 : ¬z.toNat < x.toNat := by omega
            simp only [if_neg h1, if_neg h2]
            exact charsLt_trans hab hbc

theorem charsLt_asymm {a b : List Char} (h : charsLt a b = true) : charsLt b a = false := by
  by_contra hc
  have hba : charsLt b a = true := by
    cases hcb : charsLt b a
    · exact absurd hcb hc
    · rfl
  have := charsLt_trans h hba
  rw [charsLt_irrefl] at this
  cases this

theorem char_toNat_inj {a b : Char} (h : a.toNat = b.toNat) : a = b :=
  Char.ext (UInt32.ext h)

theorem charsLt_connex : ∀ {a b : List Char},
    charsLt a b = false → charsLt b a = false → a = b
  | [], [], _, _ => rfl
  | [], _ :: _, hab, _ => by simp [charsLt] at hab
  | _ :: _, [], _, hba => by simp [charsLt] at hba
  | x :: xs, y :: ys, hab, hba => by
    simp only [charsLt] at hab hba
    by_cases hxy : x.toNat < y.toNat
    · simp [if_pos hxy] at hab
    · by_cases hyx : y.toNat < x.toNat
      · simp [if_pos hyx] at hba
      · simp only [if_neg hxy, if_neg hyx] at hab hba
        have hx : x = y := char_toNat_inj (by omega)
        have ht : xs = ys := charsLt_connex hab hba
        rw [hx, ht]

theorem strLE_total (a b : String) : strLE a b = true ∨ strLE b a = true := by
  unfold strLE
  cases h : charsLt b.toList a.toList
  · left; rfl
  · right
    rw [charsLt_asymm h]
    rfl

theorem strLE_trans {a b c : String} (h1 : strLE a b = true) (h2 : strLE b c = true) :
    strLE a c = true := by
  unfold strLE at h1 h2 ⊢
  by_contra hc
  have hca : charsLt c.toList a.toList = true := by
    cases hx : charsLt c.toList a.toList
    · exact absurd (by rw [hx]; rfl) hc
    · rfl
  have hba : charsLt b.toList a.toList = false := by
    cases hx : charsLt b.toList a.toList
    · rfl
    · rw [hx] at h1; cases h1
  have hcb : charsLt c.toList b.toList = false := by
    cases hx : charsLt c.toList b.toList
    · rfl
    · rw [hx] at h2; cases h2
  cases hbc : charsLt b.toList c.toList
  · have : b.toList = c.toList := charsLt_connex hbc hcb
    rw [this] at hba
    rw [hba] at hca
    cases hca
  · have := charsLt_trans hbc hca
    rw [this] at hba
    cases hba

/-! ### Sorting lemmas -/

instance : IsTotal ScoredResult (fun a b => b.score ≤ a.score) :=
  ⟨fun a b => Nat.le_total b.score a.score⟩

instance : IsTrans ScoredResult (fun a b => b.score ≤ a.score) :=
  ⟨fun _ _ _ hab hbc => Nat.le_trans hbc hab⟩

theorem sortByScoreDesc_perm (l : List ScoredResult) : List.Perm (sortByScoreDesc l) l :=
  List.perm_insertionSort _ l

theorem sortByScoreDesc_sorted (l : List ScoredResult) :
    (sortByScoreDesc l).Pairwise (fun a b => b.score ≤ a.score) :=
  List.sorted_insertionSort _ l

instance : IsTotal String (fun a b => strLE a b = true) := ⟨strLE_total⟩

instance : IsTrans String (fun a b => strLE a b = true) :=
  ⟨fun _ _ _ h1 h2 => strLE_trans h1 h2⟩

theorem sortStrings_perm (l : List String) : List.Perm (sortStrings l) l :=
  List.perm_insertionSort _ l

theorem sortStrings_sorted (l : List String) :
    (sortStrings l).Pairwise (fun a b => strLE a b = true) :=
  List.sorted_insertionSort _ l

/-! ### Deduplication-by-entry lemmas -/

theorem dedupInsert_mem : ∀ (m : List (String × ScoredResult)) (r : ScoredResult)
    (p : String × ScoredResult), p ∈ dedupInsert m r → p ∈ m ∨ p = (r.entry.id, r)
  | [], r, p, hp => by
    simp only [dedupInsert, List.mem_singleton] at hp
    exact Or.inr hp
  | (k, v) :: t, r, p, hp => by
    simp only [dedupInsert] at hp
    by_cases hk : k == r.entry.id
    · rw [if_pos hk] at hp
      have hkeq : k = r.entry.id := eq_of_beq hk
      by_cases hs : v.score < r.score
      · rw [if_pos hs] at hp
        rcases List.mem_cons.mp hp with h | h
        · exact Or.inr (by rw [h, hkeq])
        · exact Or.inl (List.mem_cons_of_mem _ h)
      · rw [if_neg hs] at hp
        exact Or.inl hp
    · rw [if_neg hk] at hp
      rcases List.mem_cons.mp hp with h | h
      · exact Or.inl (h ▸ List.mem_cons_self _ _)
      · rcases dedupInsert_mem t r p h with h2 | h2
        · exact Or.inl (List.mem_cons_of_mem _ h2)
        · exact Or.inr h2

theorem dedupInsert_keys_mem : ∀ (m : List (String × ScoredResult)) (r : ScoredResult),
    r.entry.id ∈ m.map Prod.fst → (dedupInsert m r).map Prod.fst = m.map Prod.fst
  | [], r, h => by simp at h
  | (k, v) :: t, r, h => by
    simp only [dedupInsert]
    by_cases hk : k == r.entry.id
    · rw [if_pos hk]
      have hkeq : k = r.entry.id := eq_of_beq hk
      by_cases hs : v.score < r.score
      · rw [if_pos hs]; simp [hkeq]
      · rw [if_neg hs]
    · rw [if_neg hk]
      have hkne : k ≠ r.entry.id := fun he => hk (by simp [he])
      have hmem : r.entry.id ∈ t.map Prod.fst := by
        simp only [List.map_cons, List.mem_cons] at h
        rcases h with h | h
        · exact absurd h.symm hkne
        · exact h
      simp [dedupInsert_keys_mem t r hmem]

theorem dedupInsert_keys_new : ∀ (m : List (String × ScoredResult)) (r : ScoredResult),
    r.entry.id ∉ m.map Prod.fst →
    (dedupInsert m r).map Prod.fst = m.map Prod.fst ++ [r.entry.id]
  | [], r, _ => rfl
  | (k, v) :: t, r, h => by
    simp only [List.map_cons, List.mem_cons, not_or] at h
    obtain ⟨hne, hnt⟩ := h
    simp only [dedupInsert]
    have hk : ¬(k == r.entry.id) := fun hb => hne (eq_of_beq hb).symm
    rw [if_neg hk]
    simp [dedupInsert_keys_new t r hnt]

theorem dedupInsert_nodup_keys (m : List (String × ScoredResult)) (r : ScoredResult)
    (h : (m.map Prod.fst).Nodup) : ((dedupInsert m r).map Prod.fst).Nodup := by
  by_cases hm : r.entry.id ∈ m.map Prod.fst
  · rw [dedupInsert_keys_mem m r hm]; exact h
  · rw [dedupInsert_keys_new m r hm]
    exact List.Nodup.append h (List.nodup_singleton _) (by
      intro a ha hb
      simp only [List.mem_singleton] at hb
      exact hm (hb ▸ ha))

theorem dedupInsert_entryid (m : List (String × ScoredResult)) (r : ScoredResult)
    (h : ∀ p ∈ m, p.2.entry.id = p.1) : ∀ p ∈ dedupInsert m r, p.2.entry.id = p.1 := by
  intro p hp
  rcases dedupInsert_mem m r p hp with h2 | h2
  · exact h p h2
  · rw [h2]

theorem dedupInsert_exists : ∀ (m : List (String × ScoredResult)) (r : ScoredResult),
    ∃ p ∈ dedupInsert m r, p.1 = r.entry.id ∧ r.score ≤ p.2.score
  | [], r => ⟨(r.entry.id, r), List.mem_singleton_self _, rfl, Nat.le_refl _⟩
  | (k, v) :: t, r => by
    simp only [dedupInsert]
    by_cases hk : k == r.entry.id
    · rw [if_pos hk]
      have hkeq : k = r.entry.id := eq_of_beq hk
      by_cases hs : v.score < r.score
      · rw [if_pos hs]
        exact ⟨(k, r), List.mem_cons_self _ _, hkeq, Nat.le_refl _⟩
      · rw [if_neg hs]
        exact ⟨(k, v), List.mem_cons_self _ _, hkeq, Nat.le_of_not_lt hs⟩
    · rw [if_neg hk]
      obtain ⟨p, hp, h1, h2⟩ := dedupInsert_exists t r
      exact ⟨p, List.mem_cons_of_mem _ hp, h1, h2⟩

theorem dedupInsert_mono : ∀ (m : List (String × ScoredResult)) (r : ScoredResult),
    ∀ p ∈ m, ∃ p2 ∈ dedupInsert m r, p2.1 = p.1 ∧ p.2.score ≤ p2.2.score
  | [], _, p, hp => absurd hp (List.not_mem_nil p)
  | (k, v) :: t, r, p, hp => by
    simp only [dedupInsert]
    by_cases hk : k == r.entry.id
    · rw [if_pos hk]
      by_cases hs : v.score < r.score
      · rw [if_pos hs]
        rcases List.mem_cons.mp hp with h | h
        · exact ⟨(k, r), List.mem_cons_self _ _, by rw [h], by
            rw [h]; exact Nat.le_of_lt hs⟩
        · exact ⟨p, List.mem_cons_of_mem _ h, rfl, Nat.le_refl _⟩
      · rw [if_neg hs]
        exact ⟨p, hp, rfl, Nat.le_refl _⟩
    · rw [if_neg hk]
      rcases List.mem_cons.mp hp with h | h
      · exact ⟨(k, v), List.mem_cons_self _ _, by rw [h], by rw [h]⟩
      · obtain ⟨p2, hp2, h1, h2⟩ := dedupInsert_mono t r p h
        exact ⟨p2, List.mem_cons_of_mem _ hp2, h1, h2⟩

theorem dedupFold_spec : ∀ (l : List ScoredResult) (m : List (String × ScoredResult)),
    (m.map Prod.fst).Nodup → (∀ p ∈ m, p.2.entry.id = p.1) →
    (((l.foldl dedupInsert m).map Prod.fst).Nodup
    ∧ (∀ p ∈ l.foldl dedupInsert m, p.2.entry.id = p.1))
    ∧ (∀ p ∈ l.foldl dedupInsert m, p ∈ m ∨ p.2 ∈ l)
    ∧ (∀ r ∈ l, ∃ p ∈ l.foldl dedupInsert m, p.1 = r.entry.id ∧ r.score ≤ p.2.score)
    ∧ (∀ p ∈ m, ∃ p2 ∈ l.foldl dedupInsert m, p2.1 = p.1 ∧ p.2.score ≤ p2.2.score)
  | [], m, hnd, hid =>
    ⟨⟨hnd, hid⟩, fun p hp => Or.inl hp, fun r hr => absurd hr (List.not_mem_nil r),
      fun p hp => ⟨p, hp, rfl, Nat.le_refl _⟩⟩
  | r :: t, m, hnd, hid => by
    have hnd1 : ((dedupInsert m r).map Prod.fst).Nodup := dedupInsert_nodup_keys m r hnd
    have hid1 : ∀ p ∈ dedupInsert m r, p.2.entry.id = p.1 := dedupInsert_entryid m r hid
    obtain ⟨⟨ihnd, ihid⟩, ihorig, ihall, ihmono⟩ := dedupFold_spec t (dedupInsert m r) hnd1 hid1
    simp only [List.foldl_cons]
    refine ⟨⟨ihnd, ihid⟩, ?_, ?_, ?_⟩
    · intro p hp
      rcases ihorig p hp with h | h
      · rcases dedupInsert_mem m r p h with h2 | h2
        · exact Or.inl h2
        · exact Or.inr (by rw [h2]; exact List.mem_cons_self _ _)
      · exact Or.inr (List.mem_cons_of_mem _ h)
    · intro x hx
      rcases List.mem_cons.mp hx with h | h
      · obtain ⟨p, hp, h1, h2⟩ := dedupInsert_exists m r
        obtain ⟨p2, hp2, h3, h4⟩ := ihmono p hp
        exact ⟨p2, hp2, by rw [h3, h1, h], Nat.le_trans (h ▸ h2) h4⟩
      · exact ihall x h
    · intro p hp
      obtain ⟨p1, hp1, h1, h2⟩ := dedupInsert_mono m r p hp
      obtain ⟨p2, hp2, h3, h4⟩ := ihmono p1 hp1
      exact ⟨p2, hp2, by rw [h3, h1], Nat.le_trans h2 h4⟩

theorem deduplicateByEntry_idNodup (l : List ScoredResult) :
    ((deduplicateByEntry l).map (fun r => r.entry.id)).Nodup := by
  obtain ⟨⟨hnd, hid⟩, _, _, _⟩ :=
    dedupFold_spec l [] List.nodup_nil (fun p hp => absurd hp (List.not_mem_nil p))
  unfold deduplicateByEntry
  have : ((l.foldl dedupInsert []).map Prod.snd).map (fun r => r.entry.id)
      = (l.foldl dedupInsert []).map Prod.fst := by
    rw [List.map_map]
    exact List.map_congr_left (fun p hp => hid p hp)
  rw [this]
  exact hnd

theorem deduplicateByEntry_subset (l : List ScoredResult) :
    ∀ x ∈ deduplicateByEntry l, x ∈ l := by
  intro x hx
  obtain ⟨_, horig, _, _⟩ :=
    dedupFold_spec l [] List.nodup_nil (fun p hp => absurd hp (List.not_mem_nil p))
  unfold deduplicateByEntry at hx
  obtain ⟨p, hp, hpx⟩ := List.mem_map.mp hx
  rcases horig p hp with h | h
  · exact absurd h (List.not_mem_nil p)
  · exact hpx ▸ h

theorem deduplicateByEntry_complete (l : List ScoredResult) :
    ∀ r ∈ l, ∃ x ∈ deduplicateByEntry l, x.entry.id = r.entry.id ∧ r.score ≤ x.score := by
  intro r hr
  obtain ⟨⟨_, hid⟩, _, hall, _⟩ :=
    dedupFold_spec l [] List.nodup_nil (fun p hp => absurd hp (List.not_mem_nil p))
  obtain ⟨p, hp, h1, h2⟩ := hall r hr
  refine ⟨p.2, List.mem_map.mpr ⟨p, hp, rfl⟩, ?_, h2⟩
  rw [hid p hp, h1]

/-! ### Deduplication-by-katakana lemmas -/

theorem dedupResultsAux_sublist : ∀ (l : List ConversionResult) (seen : List String),
    List.Sublist (dedupResultsAux seen l) l
  | [], _ => List.Sublist.refl _
  | r :: t, seen => by
    simp only [dedupResultsAux]
    by_cases h : r.katakana ∈ seen
    · rw [if_pos h]
      exact (dedupResultsAux_sublist t seen).cons r
    · rw [if_neg h]
      exact (dedupResultsAux_sublist t (seen ++ [r.katakana])).cons₂ r

theorem dedupResultsAux_not_seen : ∀ (l : List ConversionResult) (seen : List String),
    ∀ x ∈ dedupResultsAux seen l, x.katakana ∉ seen
  | [], _, x, hx => absurd hx (List.not_mem_nil x)
  | r :: t, seen, x, hx => by
    simp only [dedupResultsAux] at hx
    by_cases h : r.katakana ∈ seen
    · rw [if_pos h] at hx
      exact dedupResultsAux_not_seen t seen x hx
    · rw [if_neg h] at hx
      rcases List.mem_cons.mp hx with h2 | h2
      · rw [h2]; exact h
      · have := dedupResultsAux_not_seen t (seen ++ [r.katakana]) x h2
        intro hc
        exact this (List.mem_append_left _ hc)

theorem dedupResultsAux_nodup : ∀ (l : List ConversionResult) (seen : List String),
    ((dedupResultsAux seen l).map ConversionResult.katakana).Nodup
  | [], _ => List.nodup_nil
  | r :: t, seen => by
    simp only [dedupResultsAux]
    by_cases h : r.katakana ∈ seen
    · rw [if_pos h]
      exact dedupResultsAux_nodup t seen
    · rw [if_neg h]
      simp only [List.map_cons, List.nodup_cons]
      constructor
      · intro hc
        obtain ⟨x, hx, hxk⟩ := List.mem_map.mp hc
        have := dedupResultsAux_not_seen t (seen ++ [r.katakana]) x hx
        exact this (List.mem_append_right _ (by rw [hxk]; exact List.mem_singleton_self _))
      · exact dedupResultsAux_nodup t (seen ++ [r.katakana])

theorem dedupResultsAux_complete : ∀ (l : List ConversionResult) (seen : List String),
    ∀ r ∈ l, r.katakana ∈ seen ∨ ∃ x ∈ dedupResultsAux seen l, x.katakana = r.katakana
  | [], _, r, hr => absurd hr (List.not_mem_nil r)
  | a :: t, seen, r, hr => by
    simp only [dedupResultsAux]
    by_cases h : a.katakana ∈ seen
    · rw [if_pos h]
      rcases List.mem_cons.mp hr with h2 | h2
      · exact Or.inl (h2 ▸ h)
      · exact dedupResultsAux_complete t seen r h2
    · rw [if_neg h]
      rcases List.mem_cons.mp hr with h2 | h2
      · exact Or.inr ⟨a, List.mem_cons_self _ _, by rw [h2]⟩
      · rcases dedupResultsAux_complete t (seen ++ [a.katakana]) r h2 with h3 | h3
        · rcases List.mem_append.mp h3 with h4 | h4
          · exact Or.inl h4
          · exact Or.inr ⟨a, List.mem_cons_self _ _, (List.mem_singleton.mp h4).symm⟩
        · obtain ⟨x, hx, hxk⟩ := h3
          exact Or.inr ⟨x, List.mem_cons_of_mem _ hx, hxk⟩

theorem dedupResultsAux_first : ∀ (l : List ConversionResult) (seen : List String),
    ∀ x ∈ dedupResultsAux seen l,
      l.find? (fun y => y.katakana == x.katakana) = some x
  | [], _, x, hx => absurd hx (List.not_mem_nil x)
  | r :: t, seen, x, hx => by
    simp only [dedupResultsAux] at hx
    by_cases h : r.katakana ∈ seen
    · rw [if_pos h] at hx
      have hne : r.katakana ≠ x.katakana := by
        intro he
        exact dedupResultsAux_not_seen t seen x hx (he ▸ h)
      have : (r.katakana == x.katakana) = false := beq_eq_false_iff_ne.mpr hne
      simp only [List.find?, this]
      exact dedupResultsAux_first t seen x hx
    · rw [if_neg h] at hx
      rcases List.mem_cons.mp hx with h2 | h2
      · rw [h2]
        simp [List.find?]
      · have hx2 := dedupResultsAux_not_seen t (seen ++ [r.katakana]) x h2
        have hne : r.katakana ≠ x.katakana := by
          intro he
          exact hx2 (List.mem_append_right _ (he ▸ List.mem_singleton_self _))
        have : (r.katakana == x.katakana) = false := beq_eq_false_iff_ne.mpr hne
        simp only [List.find?, this]
        exact dedupResultsAux_first t (seen ++ [r.katakana]) x h2

/-! ### Three-key comparator lemmas -/

theorem scoredLE_iff (a b : ScoredResult) : scoredLE a b = true ↔ specThreeKeyLE a b := by
  unfold scoredLE specThreeKeyLE
  by_cases hs : a.score = b.score
  · rw [if_neg (by omega)]
    have hlt : ¬b.score < a.score := by omega
    cases haC : entryCommonAny a.entry <;> cases hbC : entryCommonAny b.entry <;>
      simp [hlt, hs]
  · rw [if_pos hs]
    have h2 : ¬(a.score = b.score ∧
        ((entryCommonAny a.entry = true ∧ entryCommonAny b.entry = false)
          ∨ (entryCommonAny a.entry = entryCommonAny b.entry
              ∧ strLE (firstKatakanaText a.entry) (firstKatakanaText b.entry) = true))) :=
      fun h => hs h.1
    simp only [decide_eq_true_eq, h2, or_false]
    omega

theorem specThreeKeyLE_total (a b : ScoredResult) : specThreeKeyLE a b ∨ specThreeKeyLE b a := by
  unfold specThreeKeyLE
  by_cases hs : a.score = b.score
  · cases haC : entryCommonAny a.entry <;> cases hbC : entryCommonAny b.entry <;>
      rcases strLE_total (firstKatakanaText a.entry) (firstKatakanaText b.entry) with h | h <;>
      simp [hs, haC, hbC, h]
  · omega

theorem specThreeKeyLE_trans {a b c : ScoredResult}
    (h1 : specThreeKeyLE a b) (h2 : specThreeKeyLE b c) : specThreeKeyLE a c := by
  unfold specThreeKeyLE at h1 h2 ⊢
  rcases h1 with h1 | ⟨hs1, h1⟩
  · rcases h2 with h2 | ⟨hs2, _⟩
    · exact Or.inl (Nat.lt_trans h2 h1)
    · exact Or.inl (hs2 ▸ h1)
  · rcases h2 with h2 | ⟨hs2, h2⟩
    · exact Or.inl (hs1 ▸ h2)
    · refine Or.inr ⟨hs1.trans hs2, ?_⟩
      rcases h1 with ⟨ha1, hb1⟩ | ⟨he1, hstr1⟩
      · rcases h2 with ⟨hb2, _⟩ | ⟨he2, _⟩
        · rw [hb1] at hb2; cases hb2
        · exact Or.inl ⟨ha1, he2 ▸ hb1⟩
      · rcases h2 with ⟨hb2, hc2⟩ | ⟨he2, hstr2⟩
        · exact Or.inl ⟨he1 ▸ hb2, hc2⟩
        · exact Or.inr ⟨he1.trans he2, strLE_trans hstr1 hstr2⟩

instance : IsTotal ScoredResult (fun a b => scoredLE a b = true) :=
  ⟨fun a b => by
    rcases specThreeKeyLE_total a b with h | h
    · exact Or.inl ((scoredLE_iff a b).mpr h)
    · exact Or.inr ((scoredLE_iff b a).mpr h)⟩

instance : IsTrans ScoredResult (fun a b => scoredLE a b = true) :=
  ⟨fun a b c h1 h2 => (scoredLE_iff a c).mpr
    (specThreeKeyLE_trans ((scoredLE_iff a b).mp h1) ((scoredLE_iff b c).mp h2))⟩

/-! ### Suggestion-fold lemmas -/

theorem suggestFold1 (query : String) (maxR : Nat) :
    ∀ (keys acc : List String),
    keys.foldl (fun acc k =>
        if jsStartsWith k query ∧ acc.length < maxR then acc ++ [k] else acc) acc
      = acc ++ (keys.filter (fun k => jsStartsWith k query)).take (maxR - acc.length)
  | [], acc => by simp
  | k :: t, acc => by
    simp only [List.foldl_cons, List.filter_cons]
    by_cases hpass : jsStartsWith k query = true
    · by_cases hlt : acc.length < maxR
      · rw [if_pos ⟨hpass, hlt⟩, suggestFold1 query maxR t (acc ++ [k]), if_pos hpass]
        have hn : maxR - acc.length = (maxR - (acc ++ [k]).length) + 1 := by
          simp only [List.length_append, List.length_singleton]
          omega
        rw [hn, List.take_succ_cons, List.append_assoc]
        rfl
      · rw [if_neg (fun h => hlt h.2), suggestFold1 query maxR t acc, if_pos hpass]
        have h0 : maxR - acc.length = 0 := by omega
        rw [h0, List.take_zero, List.take_zero]
    · rw [if_neg (fun h => hpass h.1), if_neg hpass]
      exact suggestFold1 query maxR t acc

theorem suggestFold2 (query : String) (maxR : Nat) :
    ∀ (keys acc0 extra : List String), keys.Nodup → (∀ k ∈ keys, k ∉ extra) →
    keys.foldl (fun acc k =>
        if jsStartsWith k query ∧ k ∉ acc ∧ acc.length < maxR then acc ++ [k] else acc)
      (acc0 ++ extra)
      = (acc0 ++ extra) ++ (keys.filter
          (fun k => jsStartsWith k query && decide (k ∉ acc0))).take
          (maxR - (acc0 ++ extra).length)
  | [], acc0, extra, _, _ => by simp
  | k :: t, acc0, extra, hnd, hext => by
    have hndt : t.Nodup := (List.nodup_cons.mp hnd).2
    have hknt : k ∉ t := (List.nodup_cons.mp hnd).1
    have hextt : ∀ x ∈ t, x ∉ extra := fun x hx => hext x (List.mem_cons_of_mem _ hx)
    have hkext : k ∉ extra := hext k (List.mem_cons_self _ _)
    simp only [List.foldl_cons, List.filter_cons]
    by_cases hpass : jsStartsWith k query = true
    · by_cases hmem : k ∈ acc0
      · have hff : ¬(jsStartsWith k query = true ∧ k ∉ acc0 ++ extra
            ∧ (acc0 ++ extra).length < maxR) :=
          fun h => h.2.1 (List.mem_append_left _ hmem)
        have hcf : (jsStartsWith k query && decide (k ∉ acc0)) = false := by
          simp [hmem]
        rw [if_neg hff, if_neg (fun h => Bool.false_ne_true (hcf ▸ h))]
        exact suggestFold2 query maxR t acc0 extra hndt hextt
      · have hcf : (jsStartsWith k query && decide (k ∉ acc0)) = true := by
          simp [hpass, hmem]
        by_cases hlt : (acc0 ++ extra).length < maxR
        · have hni : k ∉ acc0 ++ extra :=
            fun h => (List.mem_append.mp h).elim hmem hkext
          rw [if_pos ⟨hpass, hni, hlt⟩, if_pos hcf]
          have hassoc : acc0 ++ extra ++ [k] = acc0 ++ (extra ++ [k]) :=
            List.append_assoc acc0 extra [k]
          have hextk : ∀ x ∈ t, x ∉ extra ++ [k] := by
            intro x hx hmx
            rcases List.mem_append.mp hmx with h | h
            · exact hextt x hx h
            · exact hknt ((List.mem_singleton.mp h) ▸ hx)
          rw [hassoc, suggestFold2 query maxR t acc0 (extra ++ [k]) hndt hextk]
          have hn : maxR - (acc0 ++ extra).length
              = (maxR - (acc0 ++ (extra ++ [k])).length) + 1 := by
            simp only [List.length_append, List.length_singleton] at hlt ⊢
            omega
          rw [hn, List.take_succ_cons]
          simp [List.append_assoc]
        · have hff : ¬(jsStartsWith k query = true ∧ k ∉ acc0 ++ extra
              ∧ (acc0 ++ extra).length < maxR) := fun h => hlt h.2.2
          rw [if_neg hff, suggestFold2 query maxR t acc0 extra hndt hextt, if_pos hcf]
          have h0 : maxR - (acc0 ++ extra).length = 0 := by omega
          rw [h0, List.take_zero, List.take_zero]
    · have hb : jsStartsWith k query = false := by
        cases hx : jsStartsWith k query
        · rfl
        · exact absurd hx hpass
      have hcf : (jsStartsWith k query && decide (k ∉ acc0)) = false := by
        rw [hb]
        rfl
      rw [if_neg (fun h => hpass h.1), if_neg (fun h => Bool.false_ne_true (hcf ▸ h))]
      exact suggestFold2 query maxR t acc0 extra hndt hextt

theorem mapGet_not_key (m : ScoredIndex) (k : String) (h : k ∉ keysOf m) : mapGet m k = [] := by
  unfold mapGet
  rw [List.find?_eq_none.mpr]
  · rfl
  · intro p hp hbeq
    exact h (List.mem_map.mpr ⟨p, hp, eq_of_beq hbeq⟩)

theorem findScoredMatches_of_not_key (dict : IndexedDictionary) (q : String)
    (mode : SearchMode)
    (h1 : strTrim (toLowerStr q) ∉ keysOf dict.exactMatches)
    (h2 : strTrim (toLowerStr q) ∉ keysOf dict.compoundWords)
    (h3 : strTrim (toLowerStr q) ∉ keysOf dict.descriptionOnly) :
    findScoredMatches dict q mode = [] := by
  have hc : collectedFor dict (strTrim (toLowerStr q)) mode = [] := by
    unfold collectedFor
    rw [mapGet_not_key _ _ h1, mapGet_not_key _ _ h2, mapGet_not_key _ _ h3]
    simp
  unfold findScoredMatches
  dsimp only
  rw [hc]
  rfl

theorem suggestFold2_noPass (query : String) (maxR : Nat) :
    ∀ (keys acc : List String), (∀ k ∈ keys, jsStartsWith k query = false) →
    keys.foldl (fun acc k =>
        if jsStartsWith k query ∧ k ∉ acc ∧ acc.length < maxR then acc ++ [k] else acc) acc
      = acc
  | [], _, _ => rfl
  | k :: t, acc, h => by
    have hk := h k (List.mem_cons_self _ _)
    rw [List.foldl_cons, if_neg (fun hc => Bool.false_ne_true (hk ▸ hc.1))]
    exact suggestFold2_noPass query maxR t acc (fun x hx => h x (List.mem_cons_of_mem _ hx))

/-! ### Claim theorems -/

/-- C2: `findScoredMatches` returns the candidates stored under the
lower-cased, trimmed query — exact tier always, compound tier exactly for
`normal`/`broad`, description tier exactly for `broad` — deduplicated to one
candidate per entry id keeping that entry's highest collected score, sorted
by score descending; an entry indexed only via an N-word compound gloss is
returned for the first word at 80 and a later word at 60 under `normal`,
and for neither under `strict`. -/
theorem c2_findScoredMatches_spec (dict : IndexedDictionary) (query : String)
    (mode : SearchMode) :
    (findScoredMatches dict query mode
      = sortByScoreDesc (deduplicateByEntry
          (collectedFor dict (strTrim (toLowerStr query)) mode)))
    ∧ (collectedFor dict (strTrim (toLowerStr query)) mode
      = mapGet dict.exactMatches (strTrim (toLowerStr query))
        ++ (if mode = .normal ∨ mode = .broad
            then mapGet dict.compoundWords (strTrim (toLowerStr query)) else [])
        ++ (if mode = .broad
            then mapGet dict.descriptionOnly (strTrim (toLowerStr query)) else []))
    ∧ (∀ r ∈ findScoredMatches dict query mode,
        r ∈ collectedFor dict (strTrim (toLowerStr query)) mode)
    ∧ (∀ r ∈ collectedFor dict (strTrim (toLowerStr query)) mode,
        ∃ x ∈ findScoredMatches dict query mode, x.entry.id = r.entry.id ∧ r.score ≤ x.score)
    ∧ ((findScoredMatches dict query mode).map (fun r => r.entry.id)).Nodup
    ∧ (findScoredMatches dict query mode).Pairwise (fun a b => b.score ≤ a.score)
    ∧ ((findScoredMatches dict2 "mobile" .normal).map (fun r => (r.entry.id, r.score))
        = [("e2", 80)])
    ∧ ((findScoredMatches dict2 "house" .normal).map (fun r => (r.entry.id, r.score))
        = [("e2", 60)])
    ∧ findScoredMatches dict2 "mobile" .strict = []
    ∧ findScoredMatches dict2 "house" .strict = [] := by
  refine ⟨rfl, rfl, ?_, ?_, ?_, sortByScoreDesc_sorted _, by decide, by decide, by decide,
    by decide⟩
  · intro r hr
    have h1 : r ∈ deduplicateByEntry (collectedFor dict (strTrim (toLowerStr query)) mode) :=
      (List.mem_insertionSort _).mp hr
    exact deduplicateByEntry_subset _ r h1
  · intro r hr
    obtain ⟨x, hx, h1, h2⟩ := deduplicateByEntry_complete _ r hr
    exact ⟨x, (List.mem_insertionSort _).mpr hx, h1, h2⟩
  · have hperm := sortByScoreDesc_perm
      (deduplicateByEntry (collectedFor dict (strTrim (toLowerStr query)) mode))
    exact (hperm.map (fun r => r.entry.id)).nodup_iff.mpr (deduplicateByEntry_idNodup _)

/-! ### Index key invariants -/

theorem addToScoredIndex_keys_mem : ∀ (m : ScoredIndex) (k : String) (r : ScoredResult),
    k ∈ keysOf m → keysOf (addToScoredIndex m k r) = keysOf m
  | [], k, r, h => absurd h (List.not_mem_nil k)
  | (k', rs) :: t, k, r, h => by
    simp only [addToScoredIndex]
    by_cases hk : k' == k
    · rw [if_pos hk]
      rfl
    · rw [if_neg hk]
      have hkne : k' ≠ k := fun he => hk (by simp [he])
      have hmem : k ∈ keysOf t := by
        simp only [keysOf, List.map_cons, List.mem_cons] at h
        rcases h with h | h
        · exact absurd h.symm hkne
        · exact h
      show k' :: keysOf (addToScoredIndex t k r) = k' :: keysOf t
      rw [addToScoredIndex_keys_mem t k r hmem]

theorem addToScoredIndex_keys_new : ∀ (m : ScoredIndex) (k : String) (r : ScoredResult),
    k ∉ keysOf m → keysOf (addToScoredIndex m k r) = keysOf m ++ [k]
  | [], _, _, _ => rfl
  | (k', rs) :: t, k, r, h => by
    simp only [keysOf, List.map_cons, List.mem_cons, not_or] at h
    obtain ⟨hne, hnt⟩ := h
    simp only [addToScoredIndex]
    have hk : ¬(k' == k) := fun hb => hne (eq_of_beq hb).symm
    rw [if_neg hk]
    show k' :: keysOf (addToScoredIndex t k r) = (k' :: keysOf t) ++ [k]
    rw [addToScoredIndex_keys_new t k r hnt]
    rfl

/-- The key invariant maintained by every index map the loader builds: all
keys longer than two characters, no duplicate keys. -/
def goodIndex (m : ScoredIndex) : Prop :=
  (∀ k ∈ keysOf m, 2 < k.length) ∧ (keysOf m).Nodup

theorem addToScoredIndex_good (m : ScoredIndex) (k : String) (r : ScoredResult)
    (hm : goodIndex m) (hk : 2 < k.length) : goodIndex (addToScoredIndex m k r) := by
  obtain ⟨hlen, hnd⟩ := hm
  by_cases hmem : k ∈ keysOf m
  · rw [goodIndex, addToScoredIndex_keys_mem m k r hmem]
    exact ⟨hlen, hnd⟩
  · rw [goodIndex, addToScoredIndex_keys_new m k r hmem]
    constructor
    · intro x hx
      rcases List.mem_append.mp hx with h | h
      · exact hlen x h
      · rw [List.mem_singleton.mp h]; exact hk
    · exact List.Nodup.append hnd (List.nodup_singleton _) (by
        intro a ha hb
        exact hmem ((List.mem_singleton.mp hb) ▸ ha))

theorem foldl_preserve_mem {α β : Type} {P : β → Prop} {f : β → α → β} :
    ∀ (l : List α) (b : β), (∀ a ∈ l, ∀ c, P c → P (f c a)) → P b → P (l.foldl f b)
  | [], _, _, hb => hb
  | a :: t, b, h, hb =>
    foldl_preserve_mem t (f b a) (fun x hx => h x (List.mem_cons_of_mem _ hx))
      (h a (List.mem_cons_self _ _) b hb)

/-- The loader's three tier maps all satisfy `goodIndex`. -/
def goodTiers (tm : TierMaps) : Prop :=
  goodIndex tm.exactMatches ∧ goodIndex tm.compoundWords ∧ goodIndex tm.descriptionOnly

theorem addWordFold_good (entry : JMDictEntry) (score : Nat) (mt : MatchType)
    (ts : List String) (c : ScoredIndex) (hc : goodIndex c)
    (hts : ∀ w ∈ ts, 2 < w.length) :
    goodIndex (ts.foldl (fun acc w => addToScoredIndex acc w ⟨entry, score, mt, w⟩) c) := by
  apply foldl_preserve_mem ts c _ hc
  intro w hw acc hacc
  exact addToScoredIndex_good acc w _ hacc (hts w hw)

theorem filtered_words_long (l : List String) :
    ∀ w ∈ l.filter (fun w => 2 < w.length && !isCommonWord w), 2 < w.length := by
  intro w hw
  have := (List.mem_filter.mp hw).2
  simp only [Bool.and_eq_true, decide_eq_true_eq] at this
  exact this.1

theorem specIndexGloss_good (glossText : String) (entry : JMDictEntry) (m : TierMaps)
    (hm : goodTiers m) : goodTiers (specIndexGloss glossText entry m) := by
  obtain ⟨he, hc, hd⟩ := hm
  unfold specIndexGloss
  dsimp only
  have hword := filtered_words_long (splitString isSplitChar (strTrim (toLowerStr glossText)))
  have hdword := fun seg => filtered_words_long (splitString isDescSplitChar (String.mk seg))
  cases hfil : (splitString isSplitChar (strTrim (toLowerStr glossText))).filter
      (fun w => 2 < w.length && !isCommonWord w) with
  | nil =>
    cases parenInside (strTrim (toLowerStr glossText)).toList with
    | none => exact ⟨he, hc, hd⟩
    | some seg =>
      exact ⟨he, hc, addWordFold_good entry 20 .description _ _ hd (hdword seg)⟩
  | cons t ts =>
    have hword2 : ∀ w ∈ t :: ts, 2 < w.length := by
      intro w hw
      exact hword w (hfil ▸ hw)
    cases ts with
    | nil =>
      have hegood : goodIndex (addToScoredIndex m.exactMatches t
          ⟨entry, 100, .exact, t⟩) :=
        addToScoredIndex_good _ _ _ he (hword2 t (List.mem_cons_self _ _))
      cases parenInside (strTrim (toLowerStr glossText)).toList with
      | none => exact ⟨hegood, hc, hd⟩
      | some seg =>
        exact ⟨hegood, hc, addWordFold_good entry 20 .description _ _ hd (hdword seg)⟩
    | cons t2 ts2 =>
      have hcgood : goodIndex ((t2 :: ts2).foldl (fun acc w =>
          addToScoredIndex acc w ⟨entry, 60, .compound, w⟩)
          (addToScoredIndex m.compoundWords t ⟨entry, 80, .primary, t⟩)) := by
        apply addWordFold_good entry 60 .compound (t2 :: ts2)
        · exact addToScoredIndex_good _ _ _ hc (hword2 t (List.mem_cons_self _ _))
        · intro w hw
          exact hword2 w (List.mem_cons_of_mem _ hw)
      cases parenInside (strTrim (toLowerStr glossText)).toList with
      | none => exact ⟨he, hcgood, hd⟩
      | some seg =>
        exact ⟨he, hcgood, addWordFold_good entry 20 .description _ _ hd (hdword seg)⟩

/-! ### Index-builder lemmas -/

theorem cleanWords_collapse (l : List String) :
    (l.filter (fun w => 0 < w.length)).filter (fun w => 2 < w.length && !isCommonWord w)
      = l.filter (fun w => 2 < w.length && !isCommonWord w) := by
  induction l with
  | nil => rfl
  | cons w t ih =>
    simp only [List.filter_cons]
    by_cases h2 : 2 < w.length
    · have h0 : 0 < w.length := by omega
      by_cases hc : isCommonWord w
      · simp [h0, h2, hc, ih]
      · simp [h0, h2, hc, ih]
    · by_cases h0 : 0 < w.length
      · simp [h0, h2, ih]
      · simp [h0, h2, ih]

theorem enumFrom_fold_ne0 (entry : JMDictEntry) :
    ∀ (ts : List String) (n : Nat) (acc : ScoredIndex), 0 < n →
    (List.enumFrom n ts).foldl (fun acc iw =>
        if iw.1 = 0 then addToScoredIndex acc iw.2 ⟨entry, 80, .primary, iw.2⟩
        else addToScoredIndex acc iw.2 ⟨entry, 60, .compound, iw.2⟩) acc
      = ts.foldl (fun acc w => addToScoredIndex acc w ⟨entry, 60, .compound, w⟩) acc
  | [], _, _, _ => rfl
  | w :: ws, n, acc, hn => by
    simp only [List.enumFrom, List.foldl_cons]
    rw [if_neg (by omega)]
    exact enumFrom_fold_ne0 entry ws (n + 1) _ (by omega)

theorem indexWithScoring_eq_spec (glossText : String) (entry : JMDictEntry) (m : TierMaps) :
    indexWithScoring (strTrim (toLowerStr glossText)) entry m
      = specIndexGloss glossText entry m := by
  unfold indexWithScoring specIndexGloss
  simp only [cleanWords_collapse]
  cases hsv : (splitString isSplitChar (strTrim (toLowerStr glossText))).filter
      (fun w => 2 < w.length && !isCommonWord w) with
  | nil => rfl
  | cons t ts =>
    cases ts with
    | nil => rfl
    | cons t2 ts2 =>
      have hne : ¬((t :: t2 :: ts2).length = 1) := by simp
      have hlt : 1 < (t :: t2 :: ts2).length := by
        simp only [List.length_cons]
        omega
      rw [if_neg hne, if_pos hlt]
      have henum : (t :: t2 :: ts2).enum.foldl (fun acc iw =>
          if iw.1 = 0 then addToScoredIndex acc iw.2 ⟨entry, 80, .primary, iw.2⟩
          else addToScoredIndex acc iw.2 ⟨entry, 60, .compound, iw.2⟩) m.compoundWords
        = (t2 :: ts2).foldl (fun acc w => addToScoredIndex acc w ⟨entry, 60, .compound, w⟩)
            (addToScoredIndex m.compoundWords t ⟨entry, 80, .primary, t⟩) := by
        show (List.enumFrom 0 (t :: t2 :: ts2)).foldl _ _ = _
        simp only [List.enumFrom, List.foldl_cons, if_pos rfl]
        exact enumFrom_fold_ne0 entry (t2 :: ts2) 1 _ (by omega)
      rw [henum]

theorem glossFold_eq (entry : JMDictEntry) :
    ∀ (gs : List Gloss) (m : TierMaps),
    gs.foldl (fun m2 gloss =>
        if gloss.lang == some "eng" || gloss.lang == none then
          indexWithScoring (strTrim (toLowerStr gloss.text)) entry m2
        else m2) m
      = (gs.filter (fun g => g.lang == some "eng" || g.lang == none)).foldl
          (fun acc g => specIndexGloss g.text entry acc) m
  | [], _ => rfl
  | g :: gs, m => by
    simp only [List.foldl_cons, List.filter_cons]
    by_cases h : (g.lang == some "eng" || g.lang == none) = true
    · rw [if_pos h, if_pos h]
      simp only [List.foldl_cons]
      rw [indexWithScoring_eq_spec]
      exact glossFold_eq entry gs _
    · rw [if_neg h, if_neg h]
      exact glossFold_eq entry gs m

theorem indexEntry_eq_spec (entry : JMDictEntry) (m : TierMaps) :
    indexEntry m entry
      = ((entry.sense.flatMap Sense.gloss).filter
          (fun g => g.lang == some "eng" || g.lang == none)).foldl
          (fun acc g => specIndexGloss g.text entry acc) m := by
  unfold indexEntry
  induction entry.sense generalizing m with
  | nil => rfl
  | cons s rest ih =>
    simp only [List.foldl_cons, List.flatMap_cons, List.filter_append, List.foldl_append]
    rw [glossFold_eq entry s.gloss m]
    exact ih _

theorem indexEntry_good (entry : JMDictEntry) (m : TierMaps) (hm : goodTiers m) :
    goodTiers (indexEntry m entry) := by
  unfold indexEntry
  apply foldl_preserve _ _ _ hm
  intro m1 sense hm1
  apply foldl_preserve _ _ _ hm1
  intro m2 gloss hm2
  by_cases h : (gloss.lang == some "eng" || gloss.lang == none) = true
  · rw [if_pos h, indexWithScoring_eq_spec]
    exact specIndexGloss_good gloss.text entry m2 hm2
  · rw [if_neg h]
    exact hm2

/-- Every index map `buildIndex` produces has duplicate-free keys, all of
length greater than two. -/
theorem buildIndex_good (entries : List JMDictEntry) :
    goodIndex (buildIndex entries).exactMatches
    ∧ goodIndex (buildIndex entries).compoundWords
    ∧ goodIndex (buildIndex entries).descriptionOnly := by
  unfold buildIndex
  refine foldl_preserve
    (P := fun d : IndexedDictionary =>
      goodIndex d.exactMatches ∧ goodIndex d.compoundWords ∧ goodIndex d.descriptionOnly)
    ?_ entries ⟨[], [], [], [], []⟩ ?_
  · intro d entry hd
    exact indexEntry_good entry ⟨d.exactMatches, d.compoundWords, d.descriptionOnly⟩ hd
  · exact ⟨⟨fun k hk => absurd hk (List.not_mem_nil k), List.nodup_nil⟩,
      ⟨fun k hk => absurd hk (List.not_mem_nil k), List.nodup_nil⟩,
      ⟨fun k hk => absurd hk (List.not_mem_nil k), List.nodup_nil⟩⟩

theorem fuzzyGather_eq_map (dict : IndexedDictionary) (mode : SearchMode) (k : String) :
    fuzzyGather dict mode k = (rawGather dict mode k).map penalize := by
  unfold fuzzyGather rawGather
  by_cases h1 : mode = .normal ∨ mode = .broad <;> by_cases h2 : mode = .broad <;>
    simp [h1, h2, List.map_append, apply_ite (List.map penalize)]

theorem fuzzyScore_le (s : Nat) : fuzzyScore s ≤ s := by
  unfold fuzzyScore
  omega

/-- C3: every candidate `findFuzzyMatches` returns carries the 30%-penalized
score `round(0.7 × s)` of a candidate stored in the index (so it never
exceeds that stored score); candidates are gathered from at most
`2 × maxResults` fuzzy-matched keys under the same mode-based tier gating,
deduplicated per entry keeping the maximum score, sorted descending and
truncated to `maxResults`. -/
theorem c3_findFuzzyMatches_spec (ff : String → List String → List String)
    (dict : IndexedDictionary) (query : String) (mode : SearchMode) (maxResults : Nat) :
    (findFuzzyMatches ff dict query mode maxResults
      = (sortByScoreDesc (deduplicateByEntry
          (((ff (toLowerStr query) (allKeysFor dict mode)).take (maxResults * 2)).flatMap
            (fuzzyGather dict mode)))).take maxResults)
    ∧ ((ff (toLowerStr query) (allKeysFor dict mode)).take (maxResults * 2)).length
        ≤ maxResults * 2
    ∧ (∀ k, fuzzyGather dict mode k = (rawGather dict mode k).map penalize)
    ∧ (∀ s, fuzzyScore s ≤ s)
    ∧ (∀ r ∈ findFuzzyMatches ff dict query mode maxResults,
        ∃ k ∈ (ff (toLowerStr query) (allKeysFor dict mode)).take (maxResults * 2),
          ∃ r0 ∈ rawGather dict mode k,
            r = penalize r0 ∧ r.score = fuzzyScore r0.score ∧ r.score ≤ r0.score)
    ∧ (findFuzzyMatches ff dict query mode maxResults).length ≤ maxResults
    ∧ (findFuzzyMatches ff dict query mode maxResults).Pairwise
        (fun a b => b.score ≤ a.score)
    ∧ ((findFuzzyMatches ff dict query mode maxResults).map (fun r => r.entry.id)).Nodup
    ∧ (∀ r ∈ ((ff (toLowerStr query) (allKeysFor dict mode)).take (maxResults * 2)).flatMap
          (fuzzyGather dict mode),
        ∃ x ∈ sortByScoreDesc (deduplicateByEntry
            (((ff (toLowerStr query) (allKeysFor dict mode)).take (maxResults * 2)).flatMap
              (fuzzyGather dict mode))),
          x.entry.id = r.entry.id ∧ r.score ≤ x.score) := by
  refine ⟨rfl, List.length_take_le _ _, fuzzyGather_eq_map dict mode, fuzzyScore_le,
    ?_, ?_, ?_, ?_, ?_⟩
  · intro r hr
    have h1 : r ∈ sortByScoreDesc (deduplicateByEntry
        (((ff (toLowerStr query) (allKeysFor dict mode)).take (maxResults * 2)).flatMap
          (fuzzyGather dict mode))) := List.mem_of_mem_take hr
    have h2 := deduplicateByEntry_subset _ r ((List.mem_insertionSort _).mp h1)
    obtain ⟨k, hk, hrk⟩ := List.mem_flatMap.mp h2
    rw [fuzzyGather_eq_map dict mode k] at hrk
    obtain ⟨r0, hr0, hr0e⟩ := List.mem_map.mp hrk
    refine ⟨k, hk, r0, hr0, hr0e.symm, by rw [← hr0e]; rfl, ?_⟩
    rw [← hr0e]
    exact fuzzyScore_le r0.score
  · exact List.length_take_le _ _
  · exact (sortByScoreDesc_sorted _).sublist (List.take_sublist _ _)
  · have hnd := deduplicateByEntry_idNodup
      (((ff (toLowerStr query) (allKeysFor dict mode)).take (maxResults * 2)).flatMap
        (fuzzyGather dict mode))
    have hperm := sortByScoreDesc_perm (deduplicateByEntry
      (((ff (toLowerStr query) (allKeysFor dict mode)).take (maxResults * 2)).flatMap
        (fuzzyGather dict mode)))
    have hnd2 := (hperm.map (fun r => r.entry.id)).nodup_iff.mpr hnd
    exact hnd2.sublist ((List.take_sublist _ _).map _)
  · intro r hr
    obtain ⟨x, hx, h1, h2⟩ := deduplicateByEntry_complete _ r hr
    exact ⟨x, (List.mem_insertionSort _).mpr hx, h1, h2⟩

/-- C1: per English-or-untagged gloss, `buildIndex` tokenizes the
lower-cased trimmed gloss on whitespace and `,;()[]`, drops tokens of
length ≤ 2 and stop-words, indexes a single survivor into the exact tier at
100, indexes two or more survivors into the compound tier (first at 80
`primary`, later ones at 60 `compound`), and independently indexes the
first parenthesized segment's filtered tokens into the description tier at
20; shown as a refinement against the spec-worded `specIndexGloss` plus two
concrete glosses. -/
theorem c1_index_per_gloss (glossText : String) (entry : JMDictEntry) (m : TierMaps) :
    (indexWithScoring (strTrim (toLowerStr glossText)) entry m
      = specIndexGloss glossText entry m)
    ∧ (indexEntry m entry
      = ((entry.sense.flatMap Sense.gloss).filter
          (fun g => g.lang == some "eng" || g.lang == none)).foldl
          (fun acc g => specIndexGloss g.text entry acc) m)
    ∧ (indexWithScoring (strTrim (toLowerStr "Computer ")) entry6 ⟨[], [], []⟩
      = ⟨[("computer", [⟨entry6, 100, .exact, "computer"⟩])], [], []⟩)
    ∧ (indexWithScoring (strTrim (toLowerStr "computer (electronic brain)")) entry6 ⟨[], [], []⟩
      = ⟨[],
         [("computer", [⟨entry6, 80, .primary, "computer"⟩]),
          ("electronic", [⟨entry6, 60, .compound, "electronic"⟩]),
          ("brain", [⟨entry6, 60, .compound, "brain"⟩])],
         [("electronic", [⟨entry6, 20, .description, "electronic"⟩]),
          ("brain", [⟨entry6, 20, .description, "brain"⟩])]⟩) :=
  ⟨indexWithScoring_eq_spec glossText entry m, indexEntry_eq_spec entry m,
    by decide, by decide⟩

/-- C4: `processScoredResults` orders the candidate entries by the three-key
lexicographic sort — score descending, then entries with any common kana
reading before entries with none, then the entry's first katakana reading
ascending — and expands them to records in that order. -/
theorem c4_processScoredResults_order (l : List ScoredResult) :
    List.Perm (sortScored l) l
    ∧ (sortScored l).Pairwise specThreeKeyLE
    ∧ processScoredResults l
      = deduplicateResults ((sortScored l).flatMap (fun sr => entryToConversions sr.entry)) := by
  refine ⟨List.perm_insertionSort _ l, ?_, rfl⟩
  have hs : (sortScored l).Pairwise (fun a b => scoredLE a b = true) :=
    List.sorted_insertionSort _ l
  exact hs.imp (fun h => (scoredLE_iff _ _).mp h)

/-- C5: `processScoredResults` never emits two records with the same
katakana string, and `deduplicateResults` keeps exactly the first record
carrying each katakana surface form (every kept record is the `find?`-first
occurrence of its katakana, every input katakana survives, and the output
is a sublist of the input). -/
theorem c5_dedup_by_katakana (l : List ScoredResult) (results : List ConversionResult) :
    ((processScoredResults l).map ConversionResult.katakana).Nodup
    ∧ List.Sublist (deduplicateResults results) results
    ∧ (∀ r ∈ results, ∃ x ∈ deduplicateResults results, x.katakana = r.katakana)
    ∧ (∀ x ∈ deduplicateResults results,
        results.find? (fun y => y.katakana == x.katakana) = some x) := by
  refine ⟨dedupResultsAux_nodup _ _, dedupResultsAux_sublist _ _, ?_, ?_⟩
  · intro r hr
    rcases dedupResultsAux_complete results [] r hr with h | h
    · exact absurd h (List.not_mem_nil _)
    · exact h
  · intro x hx
    exact dedupResultsAux_first results [] x hx

/-- C6 counterexample: against `dict6`, `convert("computer", strict)` does
not return the record the spec states — the spec's romaji `konpyu-ta-`
cannot be produced, because the romaji table has no mapping for the small
`ュ` and the code passes unmapped characters through. -/
theorem c6_counterexample :
    convert ffNone dict6 "computer" .strict false 10 ≠ [rec6Spec] := by decide

/-- C6 (amended): against `dict6`, `convert("computer", strict)` returns
exactly one record — katakana `コンピューター`, hiragana `こんぴゅーたー`,
meaning `computer`, common, no kanji — whose romaji is `konpiュ-ta-` (the
long-vowel mark maps to `-`; the unmapped small `ュ` is passed through
verbatim), for every fuzzy matcher since the fuzzy path is off. -/
theorem c6_convert_computer (ff : String → List String → List String) :
    convert ff dict6 "computer" .strict false 10 = [rec6Code]
    ∧ rec6Code = { katakana := "コンピューター", hiragana := "こんぴゅーたー", kanji := none,
                   romaji := "konpiュ-ta-", meaning := "computer", common := true } := by
  refine ⟨?_, rfl⟩
  unfold convert
  simp only [Bool.false_eq_true, and_false, if_false]
  decide

/-- C8: the hiragana derivation does shift every code point in
U+30A1–U+30F6 down by 0x60, but the small-tsu romaji rule is dead code: the
map stores `""` for `ッ`, JS `!mapping` is true for `""`, so `ッ` is emitted
verbatim instead of doubling the next consonant (`ッカ` → `ッka`, not `kka`)
and instead of being dropped at end-of-string or before a vowel
(`カッ` → `kaッ`, `ッア` → `ッa`). -/
theorem c8_small_kana_behavior :
    (∀ c : Char, 0x30A1 ≤ c.toNat → c.toNat ≤ 0x30F6 →
      katakanaToHiragana (String.mk [c]) = String.mk [Char.ofNat (c.toNat - 0x60)])
    ∧ romajiLookup 'ッ' = some ""
    ∧ katakanaToRomaji "ッカ" = "ッka"
    ∧ katakanaToRomaji "カッ" = "kaッ"
    ∧ katakanaToRomaji "ッア" = "ッa"
    ∧ katakanaToHiragana "コンピューター" = "こんぴゅーたー" := by
  refine ⟨?_, by decide, by decide, by decide, by decide, by decide⟩
  intro c h1 h2
  unfold katakanaToHiragana
  simp only [String.toList, List.map_cons, List.map_nil]
  rw [if_pos ⟨h1, h2⟩]

/-- C7: over any built dictionary, `getSuggestions` returns up to
`maxResults` distinct index keys starting with the lower-cased partial
query, collected exact-tier keys first in iteration order and then
compound-tier keys not already collected, stopping at the limit, with the
final result sorted lexicographically; over a dictionary whose keys are
`computer, company, complete, compare`, `getSuggestions("comp", 10)`
returns all four in lexical order. -/
theorem c7_getSuggestions_spec (entries : List JMDictEntry) (q : String) (maxR : Nat) :
    let dict := buildIndex entries
    let pfx := toLowerStr q
    let stage1 := ((keysOf dict.exactMatches).filter (fun k => jsStartsWith k pfx)).take maxR
    let stage2 := ((keysOf dict.compoundWords).filter
        (fun k => jsStartsWith k pfx && decide (k ∉ stage1))).take (maxR - stage1.length)
    (getSuggestions dict q maxR = sortStrings (stage1 ++ stage2))
    ∧ (getSuggestions dict q maxR).length ≤ maxR
    ∧ (getSuggestions dict q maxR).Nodup
    ∧ (∀ k ∈ getSuggestions dict q maxR,
        jsStartsWith k pfx = true
        ∧ (k ∈ keysOf dict.exactMatches ∨ k ∈ keysOf dict.compoundWords))
    ∧ (getSuggestions dict q maxR).Pairwise (fun a b => strLE a b = true)
    ∧ getSuggestions dict7 "comp" 10 = ["company", "compare", "complete", "computer"] := by
  intro dict pfx stage1 stage2
  obtain ⟨⟨hexlen, hexnd⟩, ⟨hcwlen, hcwnd⟩, _⟩ := buildIndex_good entries
  have heq : getSuggestions dict q maxR = sortStrings (stage1 ++ stage2) := by
    unfold getSuggestions
    dsimp only
    rw [suggestFold1 pfx maxR (keysOf dict.exactMatches) []]
    simp only [List.nil_append, List.length_nil, Nat.sub_zero]
    by_cases hlt : (((keysOf dict.exactMatches).filter
        (fun k => jsStartsWith k pfx)).take maxR).length < maxR
    · rw [if_pos hlt]
      have hbase : stage1 = stage1 ++ ([] : List String) := (List.append_nil _).symm
      rw [show (((keysOf dict.exactMatches).filter (fun k => jsStartsWith k pfx)).take maxR)
          = stage1 ++ ([] : List String) from (List.append_nil _).symm]
      rw [suggestFold2 pfx maxR (keysOf dict.compoundWords) stage1 [] hcwnd
        (fun k _ hk => List.not_mem_nil k hk)]
      simp only [List.append_nil]
    · rw [if_neg hlt]
      have hlt2 : ¬ stage1.length < maxR := hlt
      have h0 : maxR - stage1.length = 0 := by omega
      show sortStrings stage1 = _
      rw [show stage2 = [] from by rw [show stage2 = ((keysOf dict.compoundWords).filter
          (fun k => jsStartsWith k pfx && decide (k ∉ stage1))).take (maxR - stage1.length)
          from rfl, h0, List.take_zero]]
      rw [List.append_nil]
  have hnd12 : (stage1 ++ stage2).Nodup := by
    have hnd1 : stage1.Nodup := (List.take_sublist _ _).nodup (hexnd.filter _)
    have hnd2 : stage2.Nodup := (List.take_sublist _ _).nodup (hcwnd.filter _)
    refine List.Nodup.append hnd1 hnd2 ?_
    intro a ha1 ha2
    have := (List.mem_filter.mp (List.mem_of_mem_take ha2)).2
    simp only [Bool.and_eq_true, decide_eq_true_eq] at this
    exact this.2 ha1
  have hperm : List.Perm (getSuggestions dict q maxR) (stage1 ++ stage2) := by
    rw [heq]
    exact sortStrings_perm _
  refine ⟨heq, ?_, ?_, ?_, ?_, by decide⟩
  · rw [hperm.length_eq, List.length_append]
    have h1 : stage1.length ≤ maxR := List.length_take_le _ _
    have h2 : stage2.length ≤ maxR - stage1.length := List.length_take_le _ _
    omega
  · exact hperm.nodup_iff.mpr hnd12
  · intro k hk
    have hk2 : k ∈ stage1 ++ stage2 := hperm.mem_iff.mp hk
    rcases List.mem_append.mp hk2 with h | h
    · have hf := List.mem_filter.mp (List.mem_of_mem_take h)
      exact ⟨hf.2, Or.inl hf.1⟩
    · have hf := List.mem_filter.mp (List.mem_of_mem_take h)
      have := hf.2
      simp only [Bool.and_eq_true, decide_eq_true_eq] at this
      exact ⟨this.1, Or.inr hf.1⟩
  · rw [heq]
    exact sortStrings_sorted _

/-- C9 counterexample: `getSuggestions` with the empty input string over a
nonempty dictionary does not return an empty sequence — every key has the
empty prefix, so up to `maxResults` keys come back. -/
theorem c9_counterexample :
    getSuggestions dict6 "" 10 = ["computer"] ∧ getSuggestions dict6 "" 10 ≠ [] := by
  constructor
  · decide
  · decide

/-- C9 (amended): the search layer is total (every operation is a function
returning a list, never raising); `findScoredMatches` returns `[]` on an
empty input over any built dictionary, on any query stored under no key,
and on the empty dictionary; `findFuzzyMatches` and `getSuggestions` return
`[]` over the empty dictionary, and `getSuggestions` returns `[]` when no
key starts with the lower-cased query. (`getSuggestions` on an empty input
and `findFuzzyMatches` on an unknown query can legitimately return
results.) -/
theorem c9_empty_results (ff : String → List String → List String)
    (entries : List JMDictEntry) (dict : IndexedDictionary) (q : String)
    (mode : SearchMode) (maxR : Nat) :
    (findScoredMatches (buildIndex entries) "" mode = [])
    ∧ (strTrim (toLowerStr q) ∉ keysOf dict.exactMatches →
        strTrim (toLowerStr q) ∉ keysOf dict.compoundWords →
        strTrim (toLowerStr q) ∉ keysOf dict.descriptionOnly →
        findScoredMatches dict q mode = [])
    ∧ (buildIndex [] = ⟨[], [], [], [], []⟩)
    ∧ (findFuzzyMatches ff ⟨[], [], [], [], []⟩ q mode maxR = [])
    ∧ (getSuggestions ⟨[], [], [], [], []⟩ q maxR = [])
    ∧ ((∀ k ∈ keysOf dict.exactMatches, jsStartsWith k (toLowerStr q) = false) →
        (∀ k ∈ keysOf dict.compoundWords, jsStartsWith k (toLowerStr q) = false) →
        getSuggestions dict q maxR = []) := by
  obtain ⟨⟨hexlen, _⟩, ⟨hcwlen, _⟩, ⟨hdlen, _⟩⟩ := buildIndex_good entries
  have h0 : strTrim (toLowerStr "") = "" := by decide
  refine ⟨?_, fun h1 h2 h3 => findScoredMatches_of_not_key dict q mode h1 h2 h3, rfl,
    ?_, ?_, ?_⟩
  · refine findScoredMatches_of_not_key _ _ _ ?_ ?_ ?_ <;> rw [h0] <;> intro hmem
    · exact absurd (hexlen "" hmem) (by decide)
    · exact absurd (hcwlen "" hmem) (by decide)
    · exact absurd (hdlen "" hmem) (by decide)
  · unfold findFuzzyMatches
    dsimp only
    have hfg : ∀ k, fuzzyGather ⟨[], [], [], [], []⟩ mode k = [] := by
      intro k
      cases mode <;> rfl
    have hfm : ∀ (l : List String), l.flatMap (fuzzyGather ⟨[], [], [], [], []⟩ mode) = [] := by
      intro l
      induction l with
      | nil => rfl
      | cons a t ih =>
        rw [List.flatMap_cons, hfg, ih]
        rfl
    rw [hfm]
    exact List.take_nil
  · simp [getSuggestions, keysOf, sortStrings]
  · intro hex hcw
    unfold getSuggestions
    dsimp only
    rw [suggestFold1 (toLowerStr q) maxR _ []]
    have hfe : (keysOf dict.exactMatches).filter (fun k => jsStartsWith k (toLowerStr q))
        = [] := by
      rw [List.filter_eq_nil_iff]
      intro k hk
      rw [hex k hk]
      exact Bool.false_ne_true
    rw [hfe, List.take_nil, List.nil_append]
    by_cases hlt : ([] : List String).length < maxR
    · rw [if_pos hlt, suggestFold2_noPass (toLowerStr q) maxR _ [] hcw]
      rfl
    · rw [if_neg hlt]
      rfl

/-- C10: `convert` takes the fuzzy path only when the exact scored search
comes back empty and fuzzy is enabled; whenever `findScoredMatches` yields
at least one candidate the output is derived solely from those candidates
and does not depend on the fuzzy matcher at all. -/
theorem c10_fuzzy_only_on_empty (ff g : String → List String → List String)
    (dict : IndexedDictionary) (text : String) (mode : SearchMode) (useFuzzy : Bool)
    (maxResults : Nat) :
    (findScoredMatches dict (strTrim (toLowerStr text)) mode ≠ [] →
      convert ff dict text mode useFuzzy maxResults
        = (processScoredResults
            (findScoredMatches dict (strTrim (toLowerStr text)) mode)).take maxResults
      ∧ convert ff dict text mode useFuzzy maxResults
        = convert g dict text mode useFuzzy maxResults)
    ∧ (findScoredMatches dict (strTrim (toLowerStr text)) mode = [] → useFuzzy = true →
      convert ff dict text mode useFuzzy maxResults
        = (processScoredResults
            (findFuzzyMatches ff dict (strTrim (toLowerStr text)) mode maxResults)).take
            maxResults) := by
  constructor
  · intro h
    have hlen : ¬((findScoredMatches dict (strTrim (toLowerStr text)) mode).length = 0
        ∧ useFuzzy = true) := fun hcond => h (List.length_eq_zero.mp hcond.1)
    constructor
    · unfold convert
      simp only [if_neg hlen]
    · unfold convert
      simp only [if_neg hlen]
  · intro h hf
    have hlen : (findScoredMatches dict (strTrim (toLowerStr text)) mode).length = 0
        ∧ useFuzzy = true := ⟨List.length_eq_zero.mpr h, hf⟩
    unfold convert
    simp only [if_pos hlen]

end EnKa
